import Mathlib

set_option maxRecDepth 100000

/-!
Verification of the build pipeline stage in cargo-screeps/src/build.rs.

The Rust code invokes cargo, locates the generated .wasm / .js artifacts,
validates the generated JS against two tolerant regular expressions built
from fixed template strings, extracts the payload between the two matches,
and assembles the final script.

Modelling choices:
  * Subject texts are List Char (Rust str sliced at char granularity; all
    template text is ASCII, so byte offsets and char offsets coincide there).
  * The two regexes produced by make_into_slightly_less_brittle_regex are
    concatenations of three kinds of atoms: escaped literal runs, \s*
    wildcards (one per whitespace run of the template), and [A-Za-z0-9_]*
    wildcards (one per XXX sentinel).  They are modelled as token lists.
  * Regex::find of the rust regex crate has leftmost-first (Perl style)
    match semantics.  For the start-anchored pattern the match begins at
    offset 0 and ends at the position found by greedy matching with
    backtracking; for the end-anchored pattern the match begins at the
    least offset from which the whole remaining text is matched, and ends
    at the end of the text.  Both are implemented below as executable
    functions (mLen, findSuffixStart) with an explicit fuel argument that
    only bounds the token-list recursion depth, so tokFuel ts is always
    sufficient.
-/

/-- Whitespace characters recognised by the regex \s class: the rust regex
crate matches \s in its default Unicode mode as the Unicode White_Space
property, whose code points are U+0009 to U+000D, U+0020, U+0085, U+00A0,
U+1680, U+2000 to U+200A, U+2028, U+2029, U+202F, U+205F and U+3000. -/
def isWsChar (c : Char) : Bool :=
  (0x9 ≤ c.toNat && c.toNat ≤ 0xd) || c.toNat == 0x20 || c.toNat == 0x85 ||
  c.toNat == 0xa0 || c.toNat == 0x1680 || (0x2000 ≤ c.toNat && c.toNat ≤ 0x200a) ||
  c.toNat == 0x2028 || c.toNat == 0x2029 || c.toNat == 0x202f ||
  c.toNat == 0x205f || c.toNat == 0x3000

/-- Characters of the regex class [A-Za-z0-9_] that replaces the XXX
sentinel: the code points of A to Z, a to z, 0 to 9 and the underscore. -/
def isIdentChar (c : Char) : Bool :=
  (0x41 ≤ c.toNat && c.toNat ≤ 0x5a) || (0x61 ≤ c.toNat && c.toNat ≤ 0x7a) ||
  (0x30 ≤ c.toNat && c.toNat ≤ 0x39) || c.toNat == 0x5f

/-- Atoms of the compiled patterns: an exact literal run, a \s* wildcard,
or a [A-Za-z0-9_]* wildcard. -/
inductive Tok where
  | lit (l : List Char)
  | ws
  | ident
deriving DecidableEq

/-- Group a text into maximal runs of whitespace (flag true) and
non-whitespace (flag false) characters. -/
def groupRuns : List Char → List (Bool × List Char)
  | [] => []
  | c :: cs =>
    match groupRuns cs with
    | [] => [(isWsChar c, [c])]
    | (b, r) :: rest =>
      if isWsChar c = b then (b, c :: r) :: rest
      else (isWsChar c, [c]) :: (b, r) :: rest

/-- Emit the accumulated literal characters (reversed accumulator), if any. -/
def pushLit (acc : List Char) : List Tok :=
  match acc with
  | [] => []
  | _ => [Tok.lit acc.reverse]

/-- Split one non-whitespace run into literal and wildcard tokens, replacing
each leftmost occurrence of the sentinel XXX by the identifier wildcard,
exactly as str::replace("XXX", "[A-Za-z0-9_]*") does on the escaped text. -/
def splitRun : List Char → List Char → List Tok
  | acc, 'X' :: 'X' :: 'X' :: rest => pushLit acc ++ Tok.ident :: splitRun [] rest
  | acc, c :: rest => splitRun (c :: acc) rest
  | acc, [] => pushLit acc

/-- Model of make_into_slightly_less_brittle_regex: regex::escape keeps the
literal characters (escaping only changes their spelling in the pattern,
not the matched language), every maximal whitespace run becomes a \s*
wildcard, and every XXX sentinel becomes a [A-Za-z0-9_]* wildcard. -/
def tokenize (s : List Char) : List Tok :=
  (groupRuns s).flatMap (fun br => if br.1 then [Tok.ws] else splitRun [] br.2)

/-- The expected_prefix template string of process_js, verbatim. -/
def expectedPrefixTemplate : String :=
  "\"use strict\";\n\nif( typeof Rust === \"undefined\" ) \x7b\n    var Rust = \x7b\x7d;\n\x7d\n\n(function( root, factory ) \x7b\n    if( typeof define === \"function\" && define.amd ) \x7b\n        define( [], factory );\n    \x7d else if( typeof module === \"object\" && module.exports ) \x7b\n        module.exports = factory();\n    \x7d else \x7b\n        Rust.XXX = factory();\n    \x7d\n\x7d( this, function() \x7b\n    "

/-- The expected_suffix template string of process_js, verbatim. -/
def expectedSuffixTemplate : String :=
  "\n\n\n    if( typeof window === \"undefined\" ) \x7b\n        const fs = require( \"fs\" );\n        const path = require( \"path\" );\n        const wasm_path = path.join( __dirname, \"XXX.wasm\" );\n        const buffer = fs.readFileSync( wasm_path );\n        const mod = new WebAssembly.Module( buffer );\n\n        return __initialize( mod, false );\n    \x7d else \x7b\n        return fetch( \"XXX.wasm\" )\n            .then( response => response.arrayBuffer() )\n            .then( bytes => WebAssembly.compile( bytes ) )\n            .then( mod => __initialize( mod, true ) );\n    \x7d\n\x7d));\n"

/-- The SCREEPS_JS_INITIALIZE_CALL constant, verbatim. -/
def SCREEPS_JS_INITIALIZE_CALL : String :=
  "\n__initialize(new WebAssembly.Module(require(\x27compiled\x27)), false);\n"

/-- Tokens of the compiled start-anchored pattern. -/
def prefixToks : List Tok := tokenize expectedPrefixTemplate.data

/-- Tokens of the compiled end-anchored pattern. -/
def suffixToks : List Tok := tokenize expectedSuffixTemplate.data

/-- Greedy-first backtracking over the possible lengths consumed by a star
wildcard: try k characters first, then k-1, and so on down to 0, returning
the first success, exactly the exploration order of leftmost-first
semantics for a greedy star. -/
def starDescend (g : List Char → Option Nat) (s : List Char) : Nat → Option Nat
  | 0 => g s
  | k + 1 =>
    match g (s.drop (k + 1)) with
    | some m => some (k + 1 + m)
    | none => starDescend g s k

/-- Length of text consumed by matching the token list at the start of the
subject, with leftmost-first greedy semantics; none if no match starting at
offset 0 exists.  The fuel only bounds recursion on the token list, so any
fuel greater than the token-list length gives the true answer. -/
def mLen : Nat → List Tok → List Char → Option Nat
  | 0, _, _ => none
  | fuel + 1, ts, s =>
    match ts with
    | [] => some 0
    | Tok.lit l :: ts2 =>
      if l.isPrefixOf s then (mLen fuel ts2 (s.drop l.length)).map (fun m => l.length + m)
      else none
    | Tok.ws :: ts2 => starDescend (mLen fuel ts2) s ((s.takeWhile isWsChar).length)
    | Tok.ident :: ts2 => starDescend (mLen fuel ts2) s ((s.takeWhile isIdentChar).length)

/-- Existence of a star split after which the continuation succeeds,
explored in the same greedy-first order. -/
def starAny (g : List Char → Bool) (s : List Char) : Nat → Bool
  | 0 => g s
  | k + 1 => g (s.drop (k + 1)) || starAny g s k

/-- Whether the token list matches the whole subject text (used for the
end-anchored pattern, whose match must reach the end of the text). -/
def mFull : Nat → List Tok → List Char → Bool
  | 0, _, _ => false
  | fuel + 1, ts, s =>
    match ts with
    | [] => s.isEmpty
    | Tok.lit l :: ts2 => l.isPrefixOf s && mFull fuel ts2 (s.drop l.length)
    | Tok.ws :: ts2 => starAny (mFull fuel ts2) s ((s.takeWhile isWsChar).length)
    | Tok.ident :: ts2 => starAny (mFull fuel ts2) s ((s.takeWhile isIdentChar).length)

/-- Fuel that is always sufficient for mLen and mFull on this token list. -/
def tokFuel (ts : List Tok) : Nat := ts.length + 1

/-- Scan for the least offset (counted from i at the current text) from
which the token list matches everything up to the end of the text: the
leftmost-first match of the end-anchored pattern. -/
def findFrom (ts : List Tok) : Nat → List Char → Option Nat
  | i, [] => if mFull (tokFuel ts) ts [] then some i else none
  | i, c :: s2 => if mFull (tokFuel ts) ts (c :: s2) then some i else findFrom ts (i + 1) s2

/-- Start offset of the leftmost match of the end-anchored pattern. -/
def findSuffixStart (ts : List Tok) (s : List Char) : Option Nat := findFrom ts 0 s

/-- Substring containment, modelling str::contains. -/
def containsSub (s pat : List Char) : Bool :=
  s.tails.any (fun t => pat.isPrefixOf t)

/-- The initialization entry point marker checked by process_js. -/
def entryMarker : List Char := ("__initialize").data

/-- Text appended after the extracted payload:
format!("{}\n{}", payload, SCREEPS_JS_INITIALIZE_CALL). -/
def assembledCallText : List Char := '\n' :: SCREEPS_JS_INITIALIZE_CALL.data

/-- Failure modes of process_js expressed as error values (the Rust code
returns failure::Error values carrying the corresponding messages). -/
inductive JsError where
  | unexpectedStructure
  | missingEntryPoint
deriving DecidableEq

/-- Result of process_js: a produced script, an error return, or a Rust
panic (the out-of-bounds slice input[e..s] with e greater than s). -/
inductive JsResult where
  | ok (out : List Char)
  | err (e : JsError)
  | panicked
deriving DecidableEq

/-- Model of process_js: find the start-anchored and end-anchored matches
(either failing yields the unexpected-structure error), then require the
whole input to contain the entry marker (the ensure! on line 182 checks
input, not the extracted slice), then slice the payload between the two
matches (a Rust panic if the spans are inverted) and append the fixed
invocation snippet. -/
def process_js (input : List Char) : JsResult :=
  match mLen (tokFuel prefixToks) prefixToks input, findSuffixStart suffixToks input with
  | some e, some s =>
    if containsSub input entryMarker then
      if e ≤ s then JsResult.ok (((input.drop e).take (s - e)) ++ assembledCallText)
      else JsResult.panicked
    else JsResult.err JsError.missingEntryPoint
  | _, _ => JsResult.err JsError.unexpectedStructure

/-- The spans process_js would slice with, when both patterns match
(prefix end, suffix start). -/
def matchSpans (input : List Char) : Option (Nat × Nat) :=
  match mLen (tokFuel prefixToks) prefixToks input, findSuffixStart suffixToks input with
  | some e, some s => some (e, s)
  | _, _ => none

/-- The payload process_js extracts, when both patterns match and the spans
are not inverted. -/
def payloadAt (input : List Char) : Option (List Char) :=
  match matchSpans input with
  | some (e, s) => if e ≤ s then some ((input.drop e).take (s - e)) else none
  | none => none

/-!
Model of check and build (build.rs lines 11-104).

The external process spawn is modelled by its observable outcome: the exit
code of the cargo invocation.  The target directory is modelled by the
list of its entries, each carrying its file name and its readable content;
a DirEntry stands for the PathBuf returned by entry.path() together with
what fs::copy / fs::read_string would read from it.  The output directory
is modelled by the two files the stage can write.  I/O failures of
read_dir, copy and write (propagated with ?) are outside the model.
-/

/-- Characters after the last dot of a file name, if any. -/
def afterLastDot : List Char → Option (List Char)
  | [] => none
  | c :: rest =>
    match afterLastDot rest with
    | some e => some e
    | none => if c == '.' then some rest else none

/-- Model of Path::extension().and_then(OsStr::to_str) on a plain file
name: the part after the last dot, none when there is no dot or when the
only dot is the leading one of a hidden file. -/
def extension (name : List Char) : Option (List Char) :=
  match name with
  | '.' :: rest => afterLastDot rest
  | _ => afterLastDot name

/-- The two artifact categories the locator cares about. -/
inductive ArtifactKind where
  | wasm
  | js
deriving DecidableEq

/-- Errors of the pipeline, each carrying what the corresponding bail! or
format_err! message reports. -/
inductive BuildErr where
  | exec (code : Int)
  | ambiguousArtifact (dir : List Char) (k : ArtifactKind)
  | missingArtifact (dir : List Char) (k : ArtifactKind)
  | jsUnexpectedStructure
  | jsMissingEntryPoint
deriving DecidableEq

/-- Outcome of one run of build. -/
inductive BuildOutcome where
  | ok
  | err (e : BuildErr)
  | panicked
deriving DecidableEq

/-- A directory entry: file name plus the content behind its path. -/
structure DirEntry where
  name : List Char
  data : List Char
deriving DecidableEq

deriving instance DecidableEq for Except

/-- The two files build can write into the output directory. -/
structure OutDirState where
  compiledWasm : Option (List Char)
  mainJs : Option (List Char)
deriving DecidableEq

/-- Model of check (build.rs lines 11-29): only the exit status of the
spawned cargo process is inspected; non-zero exit is the bail! error
carrying that status. -/
def check (exitCode : Int) : Except BuildErr Unit :=
  if exitCode = 0 then Except.ok () else Except.error (BuildErr.exec exitCode)

/-- The loop of build over the directory entries (lines 59-82): classify
each entry by extension, fail on a second wasm or a second js the moment
it is seen, ignore other extensions. -/
def locGo (dir : List Char) :
    List DirEntry → Option DirEntry → Option DirEntry →
    Except BuildErr (Option DirEntry × Option DirEntry)
  | [], w, j => Except.ok (w, j)
  | e :: rest, w, j =>
    match extension e.name with
    | some ext =>
      if ext = ("wasm").data then
        match w with
        | some _ => Except.error (BuildErr.ambiguousArtifact dir ArtifactKind.wasm)
        | none => locGo dir rest (some e) j
      else if ext = ("js").data then
        match j with
        | some _ => Except.error (BuildErr.ambiguousArtifact dir ArtifactKind.js)
        | none => locGo dir rest w (some e)
      else locGo dir rest w j
    | none => locGo dir rest w j

/-- The artifact locator of build (lines 57-86): scan the entries, then
require a wasm file (checked first) and a js file. -/
def locateArtifacts (dir : List Char) (entries : List DirEntry) :
    Except BuildErr (DirEntry × DirEntry) :=
  match locGo dir entries none none with
  | Except.error e => Except.error e
  | Except.ok (w, j) =>
    match w with
    | none => Except.error (BuildErr.missingArtifact dir ArtifactKind.wasm)
    | some wf =>
      match j with
      | none => Except.error (BuildErr.missingArtifact dir ArtifactKind.js)
      | some jf => Except.ok (wf, jf)

/-- PathBuf::join of the project root with a relative subpath. -/
def rootJoin (root sub : List Char) : List Char := root ++ '/' :: sub

/-- The nested build-output directory scanned by build. -/
def targetSubdir : List Char := ("target/wasm32-unknown-unknown/release/").data

/-- External inputs of one build run: the cargo exit code and the entries
cargo left in the build-output directory. -/
structure BuildWorld where
  cargoExit : Int
  entries : List DirEntry

/-- Model of build (lines 31-104): bail on non-zero cargo exit; locate the
two artifacts; copy the wasm file to compiled.wasm (this write happens
before the js file is processed); then process the js file and write
main.js only when process_js succeeds. -/
def build (root : List Char) (w : BuildWorld) (fs : OutDirState) :
    BuildOutcome × OutDirState :=
  if w.cargoExit ≠ 0 then (BuildOutcome.err (BuildErr.exec w.cargoExit), fs)
  else
    match locateArtifacts (rootJoin root targetSubdir) w.entries with
    | Except.error e => (BuildOutcome.err e, fs)
    | Except.ok (wf, jf) =>
      let fs1 : OutDirState := { compiledWasm := some wf.data, mainJs := fs.mainJs }
      match process_js jf.data with
      | JsResult.ok out => (BuildOutcome.ok, { compiledWasm := some wf.data, mainJs := some out })
      | JsResult.err JsError.unexpectedStructure => (BuildOutcome.err BuildErr.jsUnexpectedStructure, fs1)
      | JsResult.err JsError.missingEntryPoint => (BuildOutcome.err BuildErr.jsMissingEntryPoint, fs1)
      | JsResult.panicked => (BuildOutcome.panicked, fs1)

/-!
Semantic layer: the language of a token list, instantiations of a
template, and the predicates used to prove where the leftmost-first
matches land on instantiated texts.
-/

/-- The language of a token list: a text is an instantiation when it is
the concatenation of the literal runs, an arbitrary all-whitespace string
for each \s* wildcard, and an arbitrary all-identifier string for each
[A-Za-z0-9_]* wildcard. -/
inductive Inst : List Tok → List Char → Prop where
  | nil : Inst [] []
  | lit (l : List Char) {ts t} : Inst ts t → Inst (Tok.lit l :: ts) (l ++ t)
  | ws {w : List Char} {ts t} (hw : ∀ c ∈ w, isWsChar c = true) :
      Inst ts t → Inst (Tok.ws :: ts) (w ++ t)
  | ident {w : List Char} {ts t} (hw : ∀ c ∈ w, isIdentChar c = true) :
      Inst ts t → Inst (Tok.ident :: ts) (w ++ t)

/-- Build the instantiated text from one chosen string per wildcard. -/
def instToks : List Tok → List (List Char) → List Char
  | [], _ => []
  | Tok.lit l :: ts, ch => l ++ instToks ts ch
  | Tok.ws :: ts, w :: ch => w ++ instToks ts ch
  | Tok.ws :: _, [] => []
  | Tok.ident :: ts, w :: ch => w ++ instToks ts ch
  | Tok.ident :: _, [] => []

/-- Validity of a choice list: one string per wildcard, each of the right
character class. -/
def starOkB : List Tok → List (List Char) → Bool
  | [], [] => true
  | [], _ :: _ => false
  | Tok.lit _ :: ts, ch => starOkB ts ch
  | Tok.ws :: ts, w :: ch => w.all isWsChar && starOkB ts ch
  | Tok.ws :: _, [] => false
  | Tok.ident :: ts, w :: ch => w.all isIdentChar && starOkB ts ch
  | Tok.ident :: _, [] => false

/-- No character of the head of the text may satisfy p. -/
def headNot (p : Char → Bool) (l : List Char) : Prop :=
  ∀ c, l.head? = some c → p c = false

/-- A choice list is greedy-aligned for a token list and a trailing text
when at every wildcard the character right after the chosen string is
outside the wildcard class, so the greedy matcher consumes exactly the
chosen string at the first attempt. -/
def GreedyInst : List Tok → List (List Char) → List Char → Prop
  | [], [], _ => True
  | [], _ :: _, _ => False
  | Tok.lit _ :: ts, ch, rest => GreedyInst ts ch rest
  | Tok.ws :: ts, w :: ch, rest =>
    (∀ c ∈ w, isWsChar c = true) ∧ headNot isWsChar (instToks ts ch ++ rest) ∧
      GreedyInst ts ch rest
  | Tok.ws :: _, [], _ => False
  | Tok.ident :: ts, w :: ch, rest =>
    (∀ c ∈ w, isIdentChar c = true) ∧ headNot isIdentChar (instToks ts ch ++ rest) ∧
      GreedyInst ts ch rest
  | Tok.ident :: _, [], _ => False

/-- Syntactic check on a token list guaranteeing greedy alignment for every
valid choice list: each wildcard is followed by a literal whose first
character is outside the wildcard class (an identifier wildcard may first
pass one \s* wildcard, whose choice is either empty or starts with a
whitespace character, which is never an identifier character), except that
the list may end with one final \s* wildcard. -/
def safeToks : List Tok → Bool
  | [] => true
  | [Tok.ws] => true
  | Tok.ws :: Tok.lit (c :: l) :: ts => !isWsChar c && safeToks (Tok.lit (c :: l) :: ts)
  | Tok.ident :: Tok.ws :: Tok.lit (c :: l) :: ts =>
    !isIdentChar c && safeToks (Tok.ws :: Tok.lit (c :: l) :: ts)
  | Tok.ident :: Tok.lit (c :: l) :: ts => !isIdentChar c && safeToks (Tok.lit (c :: l) :: ts)
  | Tok.lit _ :: ts => safeToks ts
  | _ => false

/-- Whether the token list ends with the one allowed trailing \s* wildcard. -/
def endsInWs : List Tok → Bool
  | [] => false
  | [Tok.ws] => true
  | _ :: ts => endsInWs ts

/-- Characters that are neither whitespace nor identifier characters; in
any instantiation these can only come from literal runs. -/
def isSpecialChar (c : Char) : Bool := !isWsChar c && !isIdentChar c

/-- The special characters contributed by the literal runs of a token
list, in order. -/
def specialsOf : List Tok → List Char
  | [] => []
  | Tok.lit l :: ts => l.filter isSpecialChar ++ specialsOf ts
  | _ :: ts => specialsOf ts

/-- Replace every leftmost occurrence of the XXX sentinel in a template
text by the given fill. -/
def fillSentinel (fill : List Char) : List Char → List Char
  | 'X' :: 'X' :: 'X' :: rest => fill ++ fillSentinel fill rest
  | c :: rest => c :: fillSentinel fill rest
  | [] => []

/-!
Helper lemmas about the matchers.
-/

theorem ws_not_ident (c : Char) (h : isWsChar c = true) : isIdentChar c = false := by
  cases hid : isIdentChar c with
  | false => rfl
  | true =>
    exfalso
    simp only [isWsChar, isIdentChar, Bool.or_eq_true, Bool.and_eq_true, beq_iff_eq,
      decide_eq_true_eq] at h hid
    omega

theorem isPrefixOf_eq_true_iff {l s : List Char} :
    l.isPrefixOf s = true ↔ ∃ t, s = l ++ t := by
  induction l generalizing s with
  | nil => simp [List.isPrefixOf]
  | cons c l2 ih =>
    cases s with
    | nil => simp [List.isPrefixOf]
    | cons d s2 =>
      simp only [List.isPrefixOf, Bool.and_eq_true, beq_iff_eq, ih, List.cons_append,
        List.cons.injEq]
      constructor
      · rintro ⟨rfl, t, rfl⟩; exact ⟨t, rfl, rfl⟩
      · rintro ⟨t, rfl, rfl⟩; exact ⟨rfl, t, rfl⟩

theorem takeWhile_append_exact {p : Char → Bool} {w t : List Char}
    (hw : ∀ c ∈ w, p c = true) (ht : headNot p t) :
    (w ++ t).takeWhile p = w := by
  induction w with
  | nil =>
    cases t with
    | nil => rfl
    | cons c t2 => simp [List.takeWhile_cons, ht c rfl]
  | cons c w2 ih =>
    simp only [List.cons_append, List.takeWhile_cons, hw c (List.mem_cons_self c w2),
      if_true, List.cons.injEq, true_and]
    exact ih (fun d hd => hw d (List.mem_cons_of_mem c hd))

theorem le_length_takeWhile {p : Char → Bool} {w t : List Char}
    (hw : ∀ c ∈ w, p c = true) :
    w.length ≤ ((w ++ t).takeWhile p).length := by
  induction w with
  | nil => simp
  | cons c w2 ih =>
    simp only [List.cons_append, List.takeWhile_cons, hw c (List.mem_cons_self c w2), if_true,
      List.length_cons]
    exact Nat.succ_le_succ (ih (fun d hd => hw d (List.mem_cons_of_mem c hd)))

theorem all_take_of_le_takeWhile {p : Char → Bool} :
    ∀ {s : List Char} {k : Nat}, k ≤ (s.takeWhile p).length →
      ∀ c ∈ s.take k, p c = true := by
  intro s
  induction s with
  | nil => intro k _ c hc; simp at hc
  | cons d s2 ih =>
    intro k hk c hc
    cases k with
    | zero => simp at hc
    | succ k2 =>
      by_cases hd : p d = true
      · simp only [List.takeWhile_cons, hd, if_true, List.length_cons,
          Nat.succ_le_succ_iff] at hk
        simp only [List.take_succ_cons, List.mem_cons] at hc
        rcases hc with rfl | hc
        · exact hd
        · exact ih hk c hc
      · simp only [List.takeWhile_cons, Bool.not_eq_true] at hd
        simp [hd] at hk

theorem starDescend_hit {g : List Char → Option Nat} {s : List Char} {K m : Nat}
    (h : g (s.drop K) = some m) : starDescend g s K = some (K + m) := by
  cases K with
  | zero => simpa [starDescend] using h
  | succ k => simp [starDescend, h]

theorem starDescend_sound {g : List Char → Option Nat} {s : List Char} :
    ∀ {K r : Nat}, starDescend g s K = some r →
      ∃ k m, k ≤ K ∧ g (s.drop k) = some m ∧ r = k + m := by
  intro K
  induction K with
  | zero =>
    intro r h
    exact ⟨0, r, Nat.le_refl 0, by simpa [starDescend] using h, (Nat.zero_add r).symm⟩
  | succ k ih =>
    intro r h
    simp only [starDescend] at h
    cases hg : g (s.drop (k + 1)) with
    | some m =>
      rw [hg] at h
      simp only [Option.some.injEq] at h
      exact ⟨k + 1, m, Nat.le_refl _, hg, h.symm⟩
    | none =>
      rw [hg] at h
      obtain ⟨k2, m, hk, hgm, hr⟩ := ih h
      exact ⟨k2, m, Nat.le_succ_of_le hk, hgm, hr⟩

theorem starAny_eq_true_iff {g : List Char → Bool} {s : List Char} {K : Nat} :
    starAny g s K = true ↔ ∃ k, k ≤ K ∧ g (s.drop k) = true := by
  induction K with
  | zero =>
    simp only [starAny]
    constructor
    · intro h; exact ⟨0, Nat.le_refl 0, by simpa using h⟩
    · rintro ⟨k, hk, h⟩
      have : k = 0 := Nat.le_zero.mp hk
      subst this; simpa using h
  | succ k ih =>
    simp only [starAny, Bool.or_eq_true, ih]
    constructor
    · rintro (h | ⟨k2, hk2, h⟩)
      · exact ⟨k + 1, Nat.le_refl _, h⟩
      · exact ⟨k2, Nat.le_succ_of_le hk2, h⟩
    · rintro ⟨k2, hk2, h⟩
      rcases Nat.lt_or_ge k2 (k + 1) with hlt | hge
      · exact Or.inr ⟨k2, Nat.lt_succ_iff.mp hlt, h⟩
      · have : k2 = k + 1 := Nat.le_antisymm hk2 hge
        subst this; exact Or.inl h

theorem mFull_sound : ∀ (fuel : Nat) (ts : List Tok) (s : List Char),
    mFull fuel ts s = true → Inst ts s := by
  intro fuel
  induction fuel with
  | zero => intro ts s h; simp [mFull] at h
  | succ f ih =>
    intro ts s h
    cases ts with
    | nil =>
      simp only [mFull, List.isEmpty_iff] at h
      subst h; exact Inst.nil
    | cons t ts2 =>
      cases t with
      | lit l =>
        simp only [mFull, Bool.and_eq_true] at h
        obtain ⟨h1, h2⟩ := h
        obtain ⟨t2, rfl⟩ := isPrefixOf_eq_true_iff.mp h1
        rw [List.drop_left] at h2
        exact Inst.lit l (ih ts2 t2 h2)
      | ws =>
        simp only [mFull] at h
        obtain ⟨k, hk, hg⟩ := starAny_eq_true_iff.mp h
        have hall := all_take_of_le_takeWhile (p := isWsChar) hk
        have hinst := ih ts2 (s.drop k) hg
        have := Inst.ws hall hinst
        rwa [List.take_append_drop] at this
      | ident =>
        simp only [mFull] at h
        obtain ⟨k, hk, hg⟩ := starAny_eq_true_iff.mp h
        have hall := all_take_of_le_takeWhile (p := isIdentChar) hk
        have hinst := ih ts2 (s.drop k) hg
        have := Inst.ident hall hinst
        rwa [List.take_append_drop] at this

theorem mFull_complete {ts : List Tok} {s : List Char} (hi : Inst ts s) :
    ∀ fuel, ts.length < fuel → mFull fuel ts s = true := by
  induction hi with
  | nil =>
    intro fuel hf
    cases fuel with
    | zero => omega
    | succ f => simp [mFull]
  | lit l hi2 ih =>
    rename_i ts2 t2
    intro fuel hf
    cases fuel with
    | zero => omega
    | succ f =>
      simp only [mFull, Bool.and_eq_true]
      refine ⟨isPrefixOf_eq_true_iff.mpr ⟨t2, rfl⟩, ?_⟩
      rw [List.drop_left]
      exact ih f (by simpa using Nat.lt_of_succ_lt_succ hf)
  | ws hw hi2 ih =>
    rename_i w ts2 t2
    intro fuel hf
    cases fuel with
    | zero => omega
    | succ f =>
      simp only [mFull]
      refine starAny_eq_true_iff.mpr ⟨w.length, le_length_takeWhile hw, ?_⟩
      rw [List.drop_left]
      exact ih f (by simpa using Nat.lt_of_succ_lt_succ hf)
  | ident hw hi2 ih =>
    rename_i w ts2 t2
    intro fuel hf
    cases fuel with
    | zero => omega
    | succ f =>
      simp only [mFull]
      refine starAny_eq_true_iff.mpr ⟨w.length, le_length_takeWhile hw, ?_⟩
      rw [List.drop_left]
      exact ih f (by simpa using Nat.lt_of_succ_lt_succ hf)

theorem mLen_exact : ∀ (ts : List Tok) (ch : List (List Char)) (rest : List Char)
    (fuel : Nat), ts.length < fuel → starOkB ts ch = true → GreedyInst ts ch rest →
    mLen fuel ts (instToks ts ch ++ rest) = some (instToks ts ch).length := by
  intro ts
  induction ts with
  | nil =>
    intro ch rest fuel hf hok _
    cases ch with
    | nil =>
      cases fuel with
      | zero => omega
      | succ f => simp [mLen, instToks]
    | cons w ch2 => simp [starOkB] at hok
  | cons t ts2 ih =>
    intro ch rest fuel hf hok hg
    cases fuel with
    | zero => omega
    | succ f =>
      have hf2 : ts2.length < f := by simpa using Nat.lt_of_succ_lt_succ hf
      cases t with
      | lit l =>
        simp only [starOkB] at hok
        simp only [GreedyInst] at hg
        simp only [instToks, List.append_assoc, mLen]
        rw [if_pos (isPrefixOf_eq_true_iff.mpr ⟨instToks ts2 ch ++ rest, rfl⟩)]
        rw [List.drop_left, ih ch rest f hf2 hok hg]
        simp [List.length_append]
      | ws =>
        cases ch with
        | nil => simp [starOkB] at hok
        | cons w ch2 =>
          simp only [starOkB, Bool.and_eq_true] at hok
          obtain ⟨hwall, hok2⟩ := hok
          obtain ⟨hw, hhead, hg2⟩ := hg
          simp only [instToks, List.append_assoc, mLen]
          rw [takeWhile_append_exact hw hhead]
          have hdrop : (w ++ (instToks ts2 ch2 ++ rest)).drop w.length =
              instToks ts2 ch2 ++ rest := List.drop_left _ _
          have hrec := ih ch2 rest f hf2 hok2 hg2
          rw [starDescend_hit (by rw [hdrop]; exact hrec)]
          simp [List.length_append]
      | ident =>
        cases ch with
        | nil => simp [starOkB] at hok
        | cons w ch2 =>
          simp only [starOkB, Bool.and_eq_true] at hok
          obtain ⟨hwall, hok2⟩ := hok
          obtain ⟨hw, hhead, hg2⟩ := hg
          simp only [instToks, List.append_assoc, mLen]
          rw [takeWhile_append_exact hw hhead]
          have hdrop : (w ++ (instToks ts2 ch2 ++ rest)).drop w.length =
              instToks ts2 ch2 ++ rest := List.drop_left _ _
          have hrec := ih ch2 rest f hf2 hok2 hg2
          rw [starDescend_hit (by rw [hdrop]; exact hrec)]
          simp [List.length_append]

theorem inst_of_starOkB : ∀ (ts : List Tok) (ch : List (List Char)),
    starOkB ts ch = true → Inst ts (instToks ts ch) := by
  intro ts
  induction ts with
  | nil =>
    intro ch hok
    cases ch with
    | nil => exact Inst.nil
    | cons w ch2 => simp [starOkB] at hok
  | cons t ts2 ih =>
    intro ch hok
    cases t with
    | lit l =>
      simp only [starOkB] at hok
      exact Inst.lit l (ih ch hok)
    | ws =>
      cases ch with
      | nil => simp [starOkB] at hok
      | cons w ch2 =>
        simp only [starOkB, Bool.and_eq_true, List.all_eq_true] at hok
        exact Inst.ws hok.1 (ih ch2 hok.2)
    | ident =>
      cases ch with
      | nil => simp [starOkB] at hok
      | cons w ch2 =>
        simp only [starOkB, Bool.and_eq_true, List.all_eq_true] at hok
        exact Inst.ident hok.1 (ih ch2 hok.2)

theorem greedy_of_safe : ∀ (ts : List Tok) (ch : List (List Char)) (rest : List Char),
    starOkB ts ch = true → safeToks ts = true →
    (endsInWs ts = true → headNot isWsChar rest) → GreedyInst ts ch rest := by
  intro ts
  induction ts using safeToks.induct with
  | case1 =>
    intro ch rest hok _ _
    cases ch with
    | nil => trivial
    | cons w ch2 => simp [starOkB] at hok
  | case2 =>
    intro ch rest hok _ hrest
    cases ch with
    | nil => simp [starOkB] at hok
    | cons w ch2 =>
      cases ch2 with
      | cons w2 ch3 => simp [starOkB] at hok
      | nil =>
        simp only [starOkB, Bool.and_eq_true, List.all_eq_true] at hok
        refine ⟨hok.1, ?_, trivial⟩
        simpa [instToks] using hrest rfl
  | case3 c l ts2 ih =>
    intro ch rest hok hsafe hrest
    simp only [safeToks, Bool.and_eq_true, Bool.not_eq_true'] at hsafe
    cases ch with
    | nil => simp [starOkB] at hok
    | cons w ch2 =>
      simp only [starOkB, Bool.and_eq_true, List.all_eq_true] at hok
      refine ⟨hok.1, ?_, ih ch2 rest hok.2 hsafe.2 (fun he => hrest he)⟩
      intro d hd
      simp only [instToks, List.cons_append, List.head?_cons, Option.some.injEq] at hd
      subst hd
      exact hsafe.1
  | case4 c l ts2 ih =>
    intro ch rest hok hsafe hrest
    simp only [safeToks, Bool.and_eq_true, Bool.not_eq_true'] at hsafe
    cases ch with
    | nil => simp [starOkB] at hok
    | cons w ch2 =>
      simp only [starOkB, Bool.and_eq_true, List.all_eq_true] at hok
      have hsafe2 : safeToks (Tok.ws :: Tok.lit (c :: l) :: ts2) = true := by
        simp [safeToks, hsafe.2.1, hsafe.2.2]
      refine ⟨hok.1, ?_, ih ch2 rest hok.2 hsafe2 (fun he => hrest he)⟩
      cases ch2 with
      | nil => simp [starOkB] at hok
      | cons w2 ch3 =>
        intro d hd
        cases w2 with
        | nil =>
          simp only [instToks, List.nil_append, List.cons_append, List.head?_cons,
            Option.some.injEq] at hd
          subst hd
          exact hsafe.1
        | cons e w3 =>
          simp only [instToks, List.cons_append, List.head?_cons, Option.some.injEq] at hd
          have hok2 := hok.2
          simp only [starOkB, Bool.and_eq_true, List.all_eq_true] at hok2
          rw [← hd]
          exact ws_not_ident e (hok2.1 e (List.mem_cons_self e w3))
  | case5 c l ts2 ih =>
    intro ch rest hok hsafe hrest
    simp only [safeToks, Bool.and_eq_true, Bool.not_eq_true'] at hsafe
    cases ch with
    | nil => simp [starOkB] at hok
    | cons w ch2 =>
      simp only [starOkB, Bool.and_eq_true, List.all_eq_true] at hok
      refine ⟨hok.1, ?_, ih ch2 rest hok.2 hsafe.2 (fun he => hrest he)⟩
      intro d hd
      simp only [instToks, List.cons_append, List.head?_cons, Option.some.injEq] at hd
      subst hd
      exact hsafe.1
  | case6 l ts2 ih =>
    intro ch rest hok hsafe hrest
    simp only [safeToks] at hsafe
    simp only [starOkB] at hok
    exact ih ch rest hok hsafe (fun he => hrest he)
  | case7 =>
    intro ch rest _ hsafe _
    simp [safeToks] at hsafe

theorem inst_filter_specials {ts : List Tok} {t : List Char} (hi : Inst ts t) :
    t.filter isSpecialChar = specialsOf ts := by
  induction hi with
  | nil => rfl
  | lit l hi2 ih => simp [List.filter_append, specialsOf, ih]
  | ws hw hi2 ih =>
    rename_i w ts2 t2
    have hnone : w.filter isSpecialChar = [] := by
      apply List.filter_eq_nil_iff.mpr
      intro c hc
      simp [isSpecialChar, hw c hc]
    simp [List.filter_append, specialsOf, hnone, ih]
  | ident hw hi2 ih =>
    rename_i w ts2 t2
    have hnone : w.filter isSpecialChar = [] := by
      apply List.filter_eq_nil_iff.mpr
      intro c hc
      simp [isSpecialChar, hw c hc]
    simp [List.filter_append, specialsOf, hnone, ih]

theorem inst_lit_decomp {ts : List Tok} {t l : List Char} (hi : Inst ts t)
    (hmem : Tok.lit l ∈ ts) : ∃ a b, t = a ++ (l ++ b) := by
  induction hi with
  | nil => simp at hmem
  | lit l2 hi2 ih =>
    rename_i ts2 t2
    rcases List.mem_cons.mp hmem with heq | hmem2
    · obtain rfl : l2 = l := by injection heq with h; exact h.symm
      exact ⟨[], t2, rfl⟩
    · obtain ⟨a, b, rfl⟩ := ih hmem2
      exact ⟨l2 ++ a, b, by simp⟩
  | ws hw hi2 ih =>
    rename_i w ts2 t2
    rcases List.mem_cons.mp hmem with heq | hmem2
    · exact absurd heq (by simp)
    · obtain ⟨a, b, rfl⟩ := ih hmem2
      exact ⟨w ++ a, b, by simp⟩
  | ident hw hi2 ih =>
    rename_i w ts2 t2
    rcases List.mem_cons.mp hmem with heq | hmem2
    · exact absurd heq (by simp)
    · obtain ⟨a, b, rfl⟩ := ih hmem2
      exact ⟨w ++ a, b, by simp⟩

theorem containsSub_of_decomp {s a b pat : List Char} (h : s = a ++ (pat ++ b)) :
    containsSub s pat = true := by
  subst h
  apply List.any_eq_true.mpr
  refine ⟨pat ++ b, ?_, isPrefixOf_eq_true_iff.mpr ⟨b, rfl⟩⟩
  exact (List.mem_tails _ _).mpr ⟨a, rfl⟩

theorem inst_cons_ws_lit_head {c0 : Char} {l0 : List Char} {ts : List Tok} {t : List Char}
    (hi : Inst (Tok.ws :: Tok.lit (c0 :: l0) :: ts) t) :
    ∃ d t2, t = d :: t2 ∧ (isWsChar d = true ∨ d = c0) := by
  cases hi with
  | ws hw hi2 =>
    rename_i w t1
    cases hi2 with
    | lit _ hi3 =>
      rename_i t3
      cases w with
      | nil => exact ⟨c0, l0 ++ t3, by simp, Or.inr rfl⟩
      | cons d w2 =>
        exact ⟨d, w2 ++ ((c0 :: l0) ++ t3), by simp, Or.inl (hw d (List.mem_cons_self d w2))⟩

/-- The tokens of the end-anchored pattern after its leading \s* wildcard
and the literal if( that follows it. -/
def suffixTailToks : List Tok := suffixToks.drop 2

theorem inst_cons_ws_lit_decomp {c0 : Char} {l0 : List Char} {ts : List Tok}
    {t : List Char} (hi : Inst (Tok.ws :: Tok.lit (c0 :: l0) :: ts) t) :
    ∃ w t3, (∀ c ∈ w, isWsChar c = true) ∧ t = w ++ ((c0 :: l0) ++ t3) ∧ Inst ts t3 := by
  cases hi with
  | ws hw hi2 =>
    cases hi2 with
    | lit _ hi3 => exact ⟨_, _, hw, rfl, hi3⟩

theorem suffixToks_eq :
    suffixToks = Tok.ws :: Tok.lit ('i' :: 'f' :: '(' :: []) :: suffixTailToks := by decide

theorem no_early_suffix {u S : List Char} (hu : u ≠ [])
    (hlast : ∀ c, u.getLast? = some c → isWsChar c = false)
    (hS : Inst suffixToks S) : ¬ Inst suffixToks (u ++ S) := by
  intro hcontra
  have h1 : (u ++ S).filter isSpecialChar = specialsOf suffixToks :=
    inst_filter_specials hcontra
  have h2 : S.filter isSpecialChar = specialsOf suffixToks := inst_filter_specials hS
  rw [List.filter_append, h2] at h1
  have hu0 : ∀ c ∈ u, isSpecialChar c = false := by
    have hlen := congrArg List.length h1
    simp only [List.length_append] at hlen
    have hz : (u.filter isSpecialChar).length = 0 := by omega
    have hnil : u.filter isSpecialChar = [] := List.eq_nil_of_length_eq_zero hz
    intro c hc
    by_contra hcs
    have hcmem : c ∈ u.filter isSpecialChar :=
      List.mem_filter.mpr ⟨hc, by simpa using hcs⟩
    simp [hnil] at hcmem
  have hallws : (∀ c ∈ u, isWsChar c = true) → False := by
    intro hws
    have hne := hlast (u.getLast hu) (List.getLast?_eq_getLast u hu)
    rw [hws (u.getLast hu) (List.getLast_mem hu)] at hne
    exact absurd hne (by simp)
  have hhead := inst_cons_ws_lit_head (suffixToks_eq ▸ hS)
  obtain ⟨w, t3, hw, heq0, _⟩ := inst_cons_ws_lit_decomp (suffixToks_eq ▸ hcontra)
  have heq : u ++ S = w ++ ('i' :: 'f' :: '(' :: t3) := by simpa using heq0
  rcases List.append_eq_append_iff.mp heq with ⟨a, hwa, hSa⟩ | ⟨c2, huc, hXc⟩
  · exact hallws (fun c hc => hw c (hwa ▸ List.mem_append_left a hc))
  · cases c2 with
    | nil =>
      simp only [List.append_nil] at huc
      exact hallws (fun c hc => hw c (huc ▸ hc))
    | cons x c3 =>
      cases c3 with
      | nil =>
        obtain ⟨d, t4, hSd, hd⟩ := hhead
        rw [hSd] at hXc
        simp only [List.cons_append, List.nil_append, List.cons.injEq] at hXc
        obtain ⟨rfl, rfl, _⟩ := hXc
        rcases hd with hd | hd
        · exact absurd hd (by decide)
        · exact absurd hd (by decide)
      | cons y c4 =>
        cases c4 with
        | nil =>
          obtain ⟨d, t4, hSd, hd⟩ := hhead
          rw [hSd] at hXc
          simp only [List.cons_append, List.nil_append, List.cons.injEq] at hXc
          obtain ⟨rfl, rfl, rfl, _⟩ := hXc
          rcases hd with hd | hd
          · exact absurd hd (by decide)
          · exact absurd hd (by decide)
        | cons z c5 =>
          simp only [List.cons_append, List.cons.injEq] at hXc
          obtain ⟨rfl, rfl, rfl, _⟩ := hXc
          have hz : ('(') ∈ u := by
            rw [huc]
            exact List.mem_append_right w (by simp)
          have hzs := hu0 ('(') hz
          exact absurd hzs (by decide)

theorem getLastQ_drop {A : List Char} : ∀ {j : Nat}, j < A.length →
    (A.drop j).getLast? = A.getLast? := by
  induction A with
  | nil => intro j hj; simp at hj
  | cons a A2 ih =>
    intro j hj
    cases j with
    | zero => rfl
    | succ j2 =>
      have hj2 : j2 < A2.length := by simpa using Nat.lt_of_succ_lt_succ hj
      cases A2 with
      | nil => simp at hj2
      | cons b A3 =>
        rw [List.drop_succ_cons, ih hj2, List.getLast?_cons_cons]

theorem findFrom_exact {ts : List Tok} : ∀ (A B : List Char) (i : Nat),
    (∀ j, j < A.length → mFull (tokFuel ts) ts (A.drop j ++ B) = false) →
    mFull (tokFuel ts) ts B = true →
    findFrom ts i (A ++ B) = some (i + A.length) := by
  intro A
  induction A with
  | nil =>
    intro B i _ hB
    cases B with
    | nil => simp [findFrom, hB]
    | cons b B2 => simp [findFrom, hB]
  | cons a A2 ih =>
    intro B i hmiss hB
    have h0 : mFull (tokFuel ts) ts (a :: (A2 ++ B)) = false := by
      have h00 := hmiss 0 (by simp)
      simpa using h00
    have hrec := ih B (i + 1) (fun j hj => by
      have hjj := hmiss (j + 1) (by simpa using Nat.succ_lt_succ hj)
      simpa using hjj) hB
    show findFrom ts i (a :: (A2 ++ B)) = some (i + (a :: A2).length)
    simp only [findFrom, h0, Bool.false_eq_true, if_false]
    rw [hrec]
    simp only [Option.some.injEq, List.length_cons]
    omega

theorem findSuffixStart_exact {A S : List Char}
    (hlast : ∀ c, A.getLast? = some c → isWsChar c = false)
    (hS : Inst suffixToks S) :
    findSuffixStart suffixToks (A ++ S) = some A.length := by
  have hB : mFull (tokFuel suffixToks) suffixToks S = true :=
    mFull_complete hS _ (Nat.lt_succ_self _)
  have hmiss : ∀ j, j < A.length →
      mFull (tokFuel suffixToks) suffixToks (A.drop j ++ S) = false := by
    intro j hj
    by_contra hmf
    have htrue : mFull (tokFuel suffixToks) suffixToks (A.drop j ++ S) = true := by
      simpa using hmf
    have hinst := mFull_sound _ _ _ htrue
    have hdrop_ne : A.drop j ≠ [] := by
      intro hnil
      have := congrArg List.length hnil
      simp [List.length_drop] at this
      omega
    refine no_early_suffix hdrop_ne ?_ hS hinst
    intro c hc
    rw [getLastQ_drop hj] at hc
    exact hlast c hc
  have := findFrom_exact A S 0 hmiss hB
  simpa [findSuffixStart] using this

theorem findFrom_some_tail {ts : List Tok} : ∀ (s : List Char) (i r : Nat),
    findFrom ts i s = some r →
    ∃ pre tail, s = pre ++ tail ∧ mFull (tokFuel ts) ts tail = true := by
  intro s
  induction s with
  | nil =>
    intro i r h
    simp only [findFrom] at h
    by_cases hm : mFull (tokFuel ts) ts [] = true
    · exact ⟨[], [], rfl, hm⟩
    · simp [hm] at h
  | cons c s2 ih =>
    intro i r h
    simp only [findFrom] at h
    by_cases hm : mFull (tokFuel ts) ts (c :: s2) = true
    · exact ⟨[], c :: s2, rfl, hm⟩
    · rw [if_neg (by simpa using hm)] at h
      obtain ⟨pre, tail, heq, hmf⟩ := ih (i + 1) r h
      exact ⟨c :: pre, tail, by simp [heq], hmf⟩

theorem marker_mem_suffixToks :
    Tok.lit (("__initialize(").data) ∈ suffixToks := by decide

theorem suffix_found_contains_marker {input : List Char} {s : Nat}
    (h : findSuffixStart suffixToks input = some s) :
    containsSub input entryMarker = true := by
  obtain ⟨pre, tail, rfl, hmf⟩ := findFrom_some_tail input 0 s h
  have hinst := mFull_sound _ _ _ hmf
  obtain ⟨a, b, hdec⟩ := inst_lit_decomp hinst marker_mem_suffixToks
  refine containsSub_of_decomp (a := pre ++ a) (b := '(' :: b) ?_
  rw [hdec]
  simp [entryMarker]

theorem process_js_not_missing_entry (input : List Char) :
    process_js input ≠ JsResult.err JsError.missingEntryPoint := by
  unfold process_js
  cases hp : mLen (tokFuel prefixToks) prefixToks input with
  | none => simp
  | some e =>
    cases hsx : findSuffixStart suffixToks input with
    | none => simp
    | some s =>
      rw [suffix_found_contains_marker hsx]
      by_cases hes : e ≤ s <;> simp [hes]

theorem safeToks_prefixToks : safeToks prefixToks = true := by decide

theorem endsInWs_prefixToks : endsInWs prefixToks = true := by decide

theorem headNot_ws_of_append {y S : List Char} (hy : y ≠ [])
    (hyhead : ∀ c, y.head? = some c → isWsChar c = false) :
    headNot isWsChar (y ++ S) := by
  intro c hc
  cases y with
  | nil => exact absurd rfl hy
  | cons d y2 =>
    simp only [List.cons_append, List.head?_cons, Option.some.injEq] at hc
    rw [← hc]
    exact hyhead d rfl

theorem mLen_on_instantiation {pch : List (List Char)} {y S : List Char}
    (hpok : starOkB prefixToks pch = true) (hy : y ≠ [])
    (hyhead : ∀ c, y.head? = some c → isWsChar c = false) :
    mLen (tokFuel prefixToks) prefixToks (instToks prefixToks pch ++ (y ++ S)) =
      some (instToks prefixToks pch).length := by
  apply mLen_exact prefixToks pch (y ++ S) (tokFuel prefixToks) (Nat.lt_succ_self _) hpok
  apply greedy_of_safe prefixToks pch (y ++ S) hpok safeToks_prefixToks
  intro _
  exact headNot_ws_of_append hy hyhead

theorem getLastQ_append {P y : List Char} (hy : y ≠ []) :
    (P ++ y).getLast? = y.getLast? := by
  induction P with
  | nil => rfl
  | cons a P2 ih =>
    cases hP2y : P2 ++ y with
    | nil => exact absurd (List.append_eq_nil.mp hP2y).2 hy
    | cons b t =>
      rw [List.cons_append, hP2y, List.getLast?_cons_cons, ← hP2y, ih]

theorem findSuffix_on_instantiation {sch : List (List Char)} {P y : List Char}
    (hsok : starOkB suffixToks sch = true) (hy : y ≠ [])
    (hylast : ∀ c, y.getLast? = some c → isWsChar c = false) :
    findSuffixStart suffixToks ((P ++ y) ++ instToks suffixToks sch) =
      some (P.length + y.length) := by
  have hinst : Inst suffixToks (instToks suffixToks sch) := inst_of_starOkB _ _ hsok
  have hres := findSuffixStart_exact (A := P ++ y) (S := instToks suffixToks sch)
    (fun c hc => by
      rw [getLastQ_append hy] at hc
      exact hylast c hc) hinst
  simpa [List.length_append] using hres

theorem process_js_panic_of_inverted {input : List Char} {e s : Nat}
    (hp : mLen (tokFuel prefixToks) prefixToks input = some e)
    (hs : findSuffixStart suffixToks input = some s) (hlt : s < e) :
    process_js input = JsResult.panicked := by
  have hct := suffix_found_contains_marker hs
  simp only [process_js, hp, hs, hct, if_true]
  simp [show ¬ e ≤ s from by omega]

theorem process_js_ok_decomp {input out : List Char}
    (h : process_js input = JsResult.ok out) :
    ∃ e s, mLen (tokFuel prefixToks) prefixToks input = some e ∧
      findSuffixStart suffixToks input = some s ∧ e ≤ s ∧
      out = (input.drop e).take (s - e) ++ assembledCallText := by
  cases hp : mLen (tokFuel prefixToks) prefixToks input with
  | none =>
    simp only [process_js, hp] at h
    exact absurd h (by simp)
  | some e =>
    cases hs : findSuffixStart suffixToks input with
    | none =>
      simp only [process_js, hp, hs] at h
      exact absurd h (by simp)
    | some s =>
      simp only [process_js, hp, hs] at h
      by_cases hct : containsSub input entryMarker = true
      · rw [hct, if_pos rfl] at h
        by_cases hes : e ≤ s
        · rw [if_pos hes] at h
          simp only [JsResult.ok.injEq] at h
          exact ⟨e, s, rfl, rfl, hes, h.symm⟩
        · rw [if_neg hes] at h
          simp at h
      · rw [Bool.not_eq_true] at hct
        rw [hct] at h
        simp at h

theorem process_js_on_instantiation (pch sch : List (List Char)) (y : List Char)
    (hpok : starOkB prefixToks pch = true) (hsok : starOkB suffixToks sch = true)
    (hy : y ≠ [])
    (hyhead : ∀ c, y.head? = some c → isWsChar c = false)
    (hylast : ∀ c, y.getLast? = some c → isWsChar c = false) :
    mLen (tokFuel prefixToks) prefixToks
        (instToks prefixToks pch ++ y ++ instToks suffixToks sch) =
      some (instToks prefixToks pch).length ∧
    findSuffixStart suffixToks
        (instToks prefixToks pch ++ y ++ instToks suffixToks sch) =
      some ((instToks prefixToks pch).length + y.length) ∧
    process_js (instToks prefixToks pch ++ y ++ instToks suffixToks sch) =
      JsResult.ok (y ++ assembledCallText) := by
  have hp : mLen (tokFuel prefixToks) prefixToks
      (instToks prefixToks pch ++ y ++ instToks suffixToks sch) =
      some (instToks prefixToks pch).length := by
    rw [List.append_assoc]
    exact mLen_on_instantiation hpok hy hyhead
  have hs : findSuffixStart suffixToks
      (instToks prefixToks pch ++ y ++ instToks suffixToks sch) =
      some ((instToks prefixToks pch).length + y.length) :=
    findSuffix_on_instantiation hsok hy hylast
  refine ⟨hp, hs, ?_⟩
  have hct := suffix_found_contains_marker hs
  simp only [process_js, hp, hs, hct, if_true]
  rw [if_pos (Nat.le_add_right _ _)]
  have hsub : (instToks prefixToks pch).length + y.length -
      (instToks prefixToks pch).length = y.length := by omega
  rw [hsub, List.append_assoc, List.drop_left, List.take_left]

/-!
Characterization of the artifact locator.
-/

/-- Whether the locator classifies this entry as the binary module. -/
def isWasmEntry (e : DirEntry) : Bool := extension e.name == some (("wasm").data)

/-- Whether the locator classifies this entry as the loader script. -/
def isJsEntry (e : DirEntry) : Bool := extension e.name == some (("js").data)

/-- The slot after the scan: a previously filled slot wins, otherwise the
first matching entry. -/
def mergeOpt (w : Option DirEntry) (l : List DirEntry) : Option DirEntry :=
  match w with
  | some x => some x
  | none => l.head?

/-- One if the slot is filled. -/
def optCount (w : Option DirEntry) : Nat := if w.isSome then 1 else 0

theorem mergeOpt_nil (w : Option DirEntry) : mergeOpt w [] = w := by
  cases w <;> rfl

theorem optCount_le_one (w : Option DirEntry) : optCount w ≤ 1 := by
  cases w <;> simp [optCount]

theorem optCount_some (x : DirEntry) : optCount (some x) = 1 := rfl

theorem optCount_none : optCount (none : Option DirEntry) = 0 := rfl

theorem locGo_run : ∀ (entries : List DirEntry) (dir : List Char) (w j : Option DirEntry),
    (entries.filter isWasmEntry).length + optCount w ≤ 1 →
    (entries.filter isJsEntry).length + optCount j ≤ 1 →
    locGo dir entries w j =
      Except.ok (mergeOpt w (entries.filter isWasmEntry),
        mergeOpt j (entries.filter isJsEntry)) := by
  intro entries
  induction entries with
  | nil =>
    intro dir w j _ _
    simp [locGo, mergeOpt_nil]
  | cons e0 rest ih =>
    intro dir w j hw hj
    cases hx : extension e0.name with
    | none =>
      have hwX : isWasmEntry e0 = false := by simp [isWasmEntry, hx]
      have hjX : isJsEntry e0 = false := by simp [isJsEntry, hx]
      rw [List.filter_cons_of_neg (by simp [hwX]), List.filter_cons_of_neg (by simp [hjX])]
      rw [List.filter_cons_of_neg (by simp [hwX])] at hw
      rw [List.filter_cons_of_neg (by simp [hjX])] at hj
      simp only [locGo, hx]
      exact ih dir w j hw hj
    | some ext =>
      by_cases hwasm : ext = ("wasm").data
      · have hwX : isWasmEntry e0 = true := by
          simp [isWasmEntry, hx, hwasm]
        have hjX : isJsEntry e0 = false := by
          subst hwasm
          simp [isJsEntry, hx]
        rw [List.filter_cons_of_pos (by simp [hwX]), List.filter_cons_of_neg (by simp [hjX])]
        rw [List.filter_cons_of_pos (by simp [hwX])] at hw
        rw [List.filter_cons_of_neg (by simp [hjX])] at hj
        cases w with
        | some x =>
          exfalso
          simp [optCount, List.length_cons] at hw
        | none =>
          have hrest : (rest.filter isWasmEntry).length = 0 := by
            simp only [List.length_cons, optCount, Option.isSome_none, if_false] at hw
            omega
          have hrestnil : rest.filter isWasmEntry = [] :=
            List.eq_nil_of_length_eq_zero hrest
          simp only [locGo, hx, if_pos hwasm]
          rw [ih dir (some e0) j (by simp [hrestnil, optCount]) hj]
          simp [mergeOpt, hrestnil]
      · by_cases hjs : ext = ("js").data
        · have hwX : isWasmEntry e0 = false := by
            subst hjs
            simp [isWasmEntry, hx]
          have hjX : isJsEntry e0 = true := by
            simp [isJsEntry, hx, hjs]
          rw [List.filter_cons_of_neg (by simp [hwX]), List.filter_cons_of_pos (by simp [hjX])]
          rw [List.filter_cons_of_neg (by simp [hwX])] at hw
          rw [List.filter_cons_of_pos (by simp [hjX])] at hj
          cases j with
          | some x =>
            exfalso
            rw [List.length_cons, optCount_some] at hj
            omega
          | none =>
            have hrest : (rest.filter isJsEntry).length = 0 := by
              simp only [List.length_cons, optCount, Option.isSome_none, if_false] at hj
              omega
            have hrestnil : rest.filter isJsEntry = [] :=
              List.eq_nil_of_length_eq_zero hrest
            simp only [locGo, hx, if_neg hwasm, if_pos hjs]
            rw [ih dir w (some e0) hw (by simp [hrestnil, optCount])]
            simp [mergeOpt, hrestnil]
        · have hwX : isWasmEntry e0 = false := by
            simp only [isWasmEntry, hx]
            simpa using fun hcon => hwasm hcon
          have hjX : isJsEntry e0 = false := by
            simp only [isJsEntry, hx]
            simpa using fun hcon => hjs hcon
          rw [List.filter_cons_of_neg (by simp [hwX]), List.filter_cons_of_neg (by simp [hjX])]
          rw [List.filter_cons_of_neg (by simp [hwX])] at hw
          rw [List.filter_cons_of_neg (by simp [hjX])] at hj
          simp only [locGo, hx, if_neg hwasm, if_neg hjs]
          exact ih dir w j hw hj

theorem locGo_amb_wasm : ∀ (entries : List DirEntry) (dir : List Char)
    (w j : Option DirEntry),
    2 ≤ (entries.filter isWasmEntry).length + optCount w →
    (entries.filter isJsEntry).length + optCount j ≤ 1 →
    locGo dir entries w j = Except.error (BuildErr.ambiguousArtifact dir ArtifactKind.wasm) := by
  intro entries
  induction entries with
  | nil =>
    intro dir w j hw _
    exfalso
    have := optCount_le_one w
    simp only [List.filter_nil, List.length_nil, Nat.zero_add] at hw
    omega
  | cons e0 rest ih =>
    intro dir w j hw hj
    cases hx : extension e0.name with
    | none =>
      have hwX : isWasmEntry e0 = false := by simp [isWasmEntry, hx]
      have hjX : isJsEntry e0 = false := by simp [isJsEntry, hx]
      rw [List.filter_cons_of_neg (by simp [hwX])] at hw
      rw [List.filter_cons_of_neg (by simp [hjX])] at hj
      simp only [locGo, hx]
      exact ih dir w j hw hj
    | some ext =>
      by_cases hwasm : ext = ("wasm").data
      · have hwX : isWasmEntry e0 = true := by simp [isWasmEntry, hx, hwasm]
        have hjX : isJsEntry e0 = false := by
          subst hwasm
          simp [isJsEntry, hx]
        rw [List.filter_cons_of_pos (by simp [hwX])] at hw
        rw [List.filter_cons_of_neg (by simp [hjX])] at hj
        cases w with
        | some x => simp [locGo, hx, if_pos hwasm]
        | none =>
          simp only [locGo, hx, if_pos hwasm]
          apply ih dir (some e0) j ?_ hj
          rw [optCount_some]
          rw [List.length_cons, optCount_none] at hw
          omega
      · by_cases hjs : ext = ("js").data
        · have hwX : isWasmEntry e0 = false := by
            subst hjs
            simp [isWasmEntry, hx]
          have hjX : isJsEntry e0 = true := by simp [isJsEntry, hx, hjs]
          rw [List.filter_cons_of_neg (by simp [hwX])] at hw
          rw [List.filter_cons_of_pos (by simp [hjX])] at hj
          cases j with
          | some x =>
            exfalso
            rw [List.length_cons, optCount_some] at hj
            omega
          | none =>
            simp only [locGo, hx, if_neg hwasm, if_pos hjs]
            apply ih dir w (some e0) hw ?_
            rw [optCount_some]
            rw [List.length_cons, optCount_none] at hj
            omega
        · have hwX : isWasmEntry e0 = false := by
            simp only [isWasmEntry, hx]
            simpa using fun hcon => hwasm hcon
          have hjX : isJsEntry e0 = false := by
            simp only [isJsEntry, hx]
            simpa using fun hcon => hjs hcon
          rw [List.filter_cons_of_neg (by simp [hwX])] at hw
          rw [List.filter_cons_of_neg (by simp [hjX])] at hj
          simp only [locGo, hx, if_neg hwasm, if_neg hjs]
          exact ih dir w j hw hj

theorem locGo_amb_js : ∀ (entries : List DirEntry) (dir : List Char)
    (w j : Option DirEntry),
    2 ≤ (entries.filter isJsEntry).length + optCount j →
    (entries.filter isWasmEntry).length + optCount w ≤ 1 →
    locGo dir entries w j = Except.error (BuildErr.ambiguousArtifact dir ArtifactKind.js) := by
  intro entries
  induction entries with
  | nil =>
    intro dir w j hjlow _
    exfalso
    have := optCount_le_one j
    simp only [List.filter_nil, List.length_nil, Nat.zero_add] at hjlow
    omega
  | cons e0 rest ih =>
    intro dir w j hjlow hw
    cases hx : extension e0.name with
    | none =>
      have hwX : isWasmEntry e0 = false := by simp [isWasmEntry, hx]
      have hjX : isJsEntry e0 = false := by simp [isJsEntry, hx]
      rw [List.filter_cons_of_neg (by simp [hjX])] at hjlow
      rw [List.filter_cons_of_neg (by simp [hwX])] at hw
      simp only [locGo, hx]
      exact ih dir w j hjlow hw
    | some ext =>
      by_cases hwasm : ext = ("wasm").data
      · have hwX : isWasmEntry e0 = true := by simp [isWasmEntry, hx, hwasm]
        have hjX : isJsEntry e0 = false := by
          subst hwasm
          simp [isJsEntry, hx]
        rw [List.filter_cons_of_neg (by simp [hjX])] at hjlow
        rw [List.filter_cons_of_pos (by simp [hwX])] at hw
        cases w with
        | some x =>
          exfalso
          rw [List.length_cons, optCount_some] at hw
          omega
        | none =>
          simp only [locGo, hx, if_pos hwasm]
          apply ih dir (some e0) j hjlow ?_
          rw [optCount_some]
          rw [List.length_cons, optCount_none] at hw
          omega
      · by_cases hjs : ext = ("js").data
        · have hwX : isWasmEntry e0 = false := by
            subst hjs
            simp [isWasmEntry, hx]
          have hjX : isJsEntry e0 = true := by simp [isJsEntry, hx, hjs]
          rw [List.filter_cons_of_pos (by simp [hjX])] at hjlow
          rw [List.filter_cons_of_neg (by simp [hwX])] at hw
          cases j with
          | some x => simp [locGo, hx, if_neg hwasm, if_pos hjs]
          | none =>
            simp only [locGo, hx, if_neg hwasm, if_pos hjs]
            apply ih dir w (some e0) ?_ hw
            rw [optCount_some]
            rw [List.length_cons, optCount_none] at hjlow
            omega
        · have hwX : isWasmEntry e0 = false := by
            simp only [isWasmEntry, hx]
            simpa using fun hcon => hwasm hcon
          have hjX : isJsEntry e0 = false := by
            simp only [isJsEntry, hx]
            simpa using fun hcon => hjs hcon
          rw [List.filter_cons_of_neg (by simp [hjX])] at hjlow
          rw [List.filter_cons_of_neg (by simp [hwX])] at hw
          simp only [locGo, hx, if_neg hwasm, if_neg hjs]
          exact ih dir w j hjlow hw

theorem locGo_err_shape : ∀ (entries : List DirEntry) (dir : List Char)
    (w j : Option DirEntry) (e : BuildErr), locGo dir entries w j = Except.error e →
    ∃ k, e = BuildErr.ambiguousArtifact dir k := by
  intro entries
  induction entries with
  | nil => intro dir w j e h; simp [locGo] at h
  | cons e0 rest ih =>
    intro dir w j e h
    cases hx : extension e0.name with
    | none =>
      simp only [locGo, hx] at h
      exact ih dir w j e h
    | some ext =>
      by_cases hwasm : ext = ("wasm").data
      · simp only [locGo, hx, if_pos hwasm] at h
        cases w with
        | some x =>
          simp only [Except.error.injEq] at h
          exact ⟨ArtifactKind.wasm, h.symm⟩
        | none => exact ih dir (some e0) j e h
      · by_cases hjs : ext = ("js").data
        · simp only [locGo, hx, if_neg hwasm, if_pos hjs] at h
          cases j with
          | some x =>
            simp only [Except.error.injEq] at h
            exact ⟨ArtifactKind.js, h.symm⟩
          | none => exact ih dir w (some e0) e h
        · simp only [locGo, hx, if_neg hwasm, if_neg hjs] at h
          exact ih dir w j e h

theorem locateArtifacts_err_shape {dir : List Char} {entries : List DirEntry} {e : BuildErr}
    (h : locateArtifacts dir entries = Except.error e) :
    (∃ k, e = BuildErr.ambiguousArtifact dir k) ∨ (∃ k, e = BuildErr.missingArtifact dir k) := by
  unfold locateArtifacts at h
  cases hgo : locGo dir entries none none with
  | error e2 =>
    rw [hgo] at h
    simp only [Except.error.injEq] at h
    subst h
    exact Or.inl (locGo_err_shape entries dir none none e2 hgo)
  | ok pair =>
    obtain ⟨w, j⟩ := pair
    rw [hgo] at h
    cases w with
    | none =>
      simp only [Except.error.injEq] at h
      exact Or.inr ⟨ArtifactKind.wasm, h.symm⟩
    | some wf =>
      cases j with
      | none =>
        simp only [Except.error.injEq] at h
        exact Or.inr ⟨ArtifactKind.js, h.symm⟩
      | some jf => simp at h

/-!
Concrete texts and worlds used by the counterexamples and witnesses.
-/

/-- A well-shaped payload placed between the two templates. -/
def payloadDemo : List Char := ("function __x() \x7b return 1; \x7d").data

/-- A generated file exactly shaped like the templates around payloadDemo. -/
def inputDemo : List Char :=
  expectedPrefixTemplate.data ++ payloadDemo ++ expectedSuffixTemplate.data

/-- A payload that does not contain the entry marker. -/
def payloadNoMarker : List Char := ("var q = 1;").data

/-- Template-shaped input whose payload lacks the entry marker. -/
def inputNoMarker : List Char :=
  expectedPrefixTemplate.data ++ payloadNoMarker ++ expectedSuffixTemplate.data

/-- Template-shaped input whose payload is a single space: the two matches
overlap inside the whitespace between the templates. -/
def inputOverlap : List Char :=
  expectedPrefixTemplate.data ++ (' ' :: []) ++ expectedSuffixTemplate.data

/-- The payload inserted in the whitespace-trailing counterexample. -/
def insertedTrailingWs : List Char := 'x' :: ' ' :: []

/-- Template-shaped input whose inserted payload ends with whitespace. -/
def inputTrailingWs : List Char :=
  expectedPrefixTemplate.data ++ insertedTrailingWs ++ expectedSuffixTemplate.data

/-- The prefix template with the sentinel XXX deleted (filled by the empty
string). -/
def filledEmpty : List Char := fillSentinel [] expectedPrefixTemplate.data

/-- One choice per wildcard of a token list: a single space for each \s*
wildcard and the letter a for each identifier wildcard. -/
def demoChoices (ts : List Tok) : List (List Char) :=
  ts.filterMap (fun t =>
    match t with
    | Tok.ws => some (' ' :: [])
    | Tok.ident => some ('a' :: [])
    | Tok.lit _ => none)

/-- Directory entries of the counterexample worlds. -/
def wasmEntryDemo : DirEntry := ⟨("out.wasm").data, ("wasmdata").data⟩

/-- A loader-script entry whose content does not match the templates. -/
def jsEntryBad : DirEntry := ⟨("out.js").data, ("garbage").data⟩

/-- A world where cargo succeeded but the generated script is malformed. -/
def worldBadJs : BuildWorld := ⟨0, [wasmEntryDemo, jsEntryBad]⟩

/-- An empty output directory. -/
def emptyOut : OutDirState := ⟨none, none⟩

/-- Two loader-script files and no binary module. -/
def jsEntryA : DirEntry := ⟨("a.js").data, ("x").data⟩

/-- Second loader-script file of the ambiguity counterexample. -/
def jsEntryB : DirEntry := ⟨("b.js").data, ("y").data⟩

/-- A directory path used by the locator counterexample. -/
def demoDir : List Char := ("proj/target/wasm32-unknown-unknown/release/").data

theorem build_failure_writes : ∀ (root : List Char) (w : BuildWorld) (fs : OutDirState),
    ((build root w fs).1 ≠ BuildOutcome.ok → (build root w fs).2.mainJs = fs.mainJs) ∧
    (∀ e, (build root w fs).1 = BuildOutcome.err e →
      e ≠ BuildErr.jsUnexpectedStructure → e ≠ BuildErr.jsMissingEntryPoint →
      (build root w fs).2 = fs) ∧
    (((build root w fs).1 = BuildOutcome.err BuildErr.jsUnexpectedStructure ∨
      (build root w fs).1 = BuildOutcome.err BuildErr.jsMissingEntryPoint ∨
      (build root w fs).1 = BuildOutcome.panicked) →
      ∃ ew ej, locateArtifacts (rootJoin root targetSubdir) w.entries = Except.ok (ew, ej) ∧
        (build root w fs).2.compiledWasm = some ew.data ∧
        (build root w fs).2.mainJs = fs.mainJs) := by
  intro root w fs
  by_cases hc : w.cargoExit = 0
  · have hne : ¬ w.cargoExit ≠ 0 := by simp [hc]
    cases hloc : locateArtifacts (rootJoin root targetSubdir) w.entries with
    | error e2 =>
      refine ⟨?_, ?_, ?_⟩
      · intro _; simp [build, hne, hloc]
      · intro e he _ _; simp [build, hne, hloc]
      · intro hcase
        exfalso
        simp only [build, if_neg hne, hloc] at hcase
        simp only [BuildOutcome.err.injEq, reduceCtorEq, or_false] at hcase
        rcases hcase with h | h
        · rw [h] at hloc
          rcases locateArtifacts_err_shape hloc with ⟨k, hk⟩ | ⟨k, hk⟩ <;> simp at hk
        · rw [h] at hloc
          rcases locateArtifacts_err_shape hloc with ⟨k, hk⟩ | ⟨k, hk⟩ <;> simp at hk
    | ok pair =>
      obtain ⟨wf, jf⟩ := pair
      cases hjs : process_js jf.data with
      | ok out =>
        refine ⟨?_, ?_, ?_⟩
        · intro hcase; exfalso; apply hcase; simp [build, hne, hloc, hjs]
        · intro e he; exfalso; simp [build, hne, hloc, hjs] at he
        · intro hcase; exfalso
          rcases hcase with h | h | h <;> simp [build, hne, hloc, hjs] at h
      | err je =>
        cases je with
        | unexpectedStructure =>
          refine ⟨?_, ?_, ?_⟩
          · intro _; simp [build, hne, hloc, hjs]
          · intro e he hne1 hne2
            exfalso
            simp only [build, if_neg hne, hloc, hjs] at he
            simp only [BuildOutcome.err.injEq] at he
            exact hne1 he.symm
          · intro _
            exact ⟨wf, jf, rfl, by simp [build, hne, hloc, hjs], by
              simp [build, hne, hloc, hjs]⟩
        | missingEntryPoint =>
          refine ⟨?_, ?_, ?_⟩
          · intro _; simp [build, hne, hloc, hjs]
          · intro e he hne1 hne2
            exfalso
            simp only [build, if_neg hne, hloc, hjs] at he
            simp only [BuildOutcome.err.injEq] at he
            exact hne2 he.symm
          · intro _
            exact ⟨wf, jf, rfl, by simp [build, hne, hloc, hjs], by
              simp [build, hne, hloc, hjs]⟩
      | panicked =>
        refine ⟨?_, ?_, ?_⟩
        · intro _; simp [build, hne, hloc, hjs]
        · intro e he _ _
          exfalso
          simp [build, hne, hloc, hjs] at he
        · intro _
          exact ⟨wf, jf, rfl, by simp [build, hne, hloc, hjs], by
            simp [build, hne, hloc, hjs]⟩
  · refine ⟨?_, ?_, ?_⟩
    · intro _; simp [build, hc]
    · intro e he _ _; simp [build, hc]
    · intro hcase
      exfalso
      rcases hcase with h | h | h <;> simp [build, hc] at h

/-!
Claim theorems.
-/

/-- C1 counterexample: on a template-shaped subject whose extracted payload
lacks the marker, both patterns match, the payload does not contain
the marker, and process_js does not return MissingEntryPointError (the
ensure! checks the whole input, and the matched suffix supplies the
marker). -/
theorem c1_counterexample :
    (mLen (tokFuel prefixToks) prefixToks inputNoMarker).isSome = true ∧
    (findSuffixStart suffixToks inputNoMarker).isSome = true ∧
    (payloadAt inputNoMarker).map (fun p => containsSub p entryMarker) = some false ∧
    process_js inputNoMarker ≠ JsResult.err JsError.missingEntryPoint := by
  refine ⟨by decide, by decide, by decide, by decide⟩

/-- C1 (amended): process_js checks the entry marker against the whole
subject text rather than the extracted payload, so whenever both patterns
match it never returns MissingEntryPointError, regardless of whether the
payload contains the marker. -/
theorem c1_marker_checked_on_whole_input : ∀ (input : List Char) (e s : Nat),
    mLen (tokFuel prefixToks) prefixToks input = some e →
    findSuffixStart suffixToks input = some s →
    process_js input ≠ JsResult.err JsError.missingEntryPoint :=
  fun input _ _ _ _ => process_js_not_missing_entry input

/-- Witness for C1: the amended theorem applied at a concrete matching
subject. -/
theorem c1_witness : process_js inputDemo ≠ JsResult.err JsError.missingEntryPoint :=
  c1_marker_checked_on_whole_input inputDemo expectedPrefixTemplate.data.length
    (expectedPrefixTemplate.data.length + payloadDemo.length) (by decide) (by decide)

/-- C2 counterexample: a run that fails loader-script validation has
already copied the binary module into the output directory, so a failed
run does write an output file. -/
theorem c2_counterexample :
    (build (("proj").data) worldBadJs emptyOut).1 =
      BuildOutcome.err BuildErr.jsUnexpectedStructure ∧
    emptyOut.compiledWasm = none ∧
    (build (("proj").data) worldBadJs emptyOut).2.compiledWasm =
      some (("wasmdata").data) ∧
    (build (("proj").data) worldBadJs emptyOut).2.mainJs = none := by
  refine ⟨by decide, rfl, by decide, by decide⟩

/-- C2 (amended): main.js is written only by a successful run, and runs
failing at or before artifact location write nothing; but a run failing in
process_js (or panicking there) has already overwritten compiled.wasm with
the located binary module, main.js alone being left unwritten. -/
theorem c2_failed_run_output_files : ∀ (root : List Char) (w : BuildWorld) (fs : OutDirState),
    ((build root w fs).1 ≠ BuildOutcome.ok → (build root w fs).2.mainJs = fs.mainJs) ∧
    (∀ e, (build root w fs).1 = BuildOutcome.err e →
      e ≠ BuildErr.jsUnexpectedStructure → e ≠ BuildErr.jsMissingEntryPoint →
      (build root w fs).2 = fs) ∧
    (((build root w fs).1 = BuildOutcome.err BuildErr.jsUnexpectedStructure ∨
      (build root w fs).1 = BuildOutcome.err BuildErr.jsMissingEntryPoint ∨
      (build root w fs).1 = BuildOutcome.panicked) →
      ∃ ew ej, locateArtifacts (rootJoin root targetSubdir) w.entries = Except.ok (ew, ej) ∧
        (build root w fs).2.compiledWasm = some ew.data ∧
        (build root w fs).2.mainJs = fs.mainJs) :=
  build_failure_writes

/-- Witness for C2: the amended theorem applied to the malformed-script
world. -/
theorem c2_witness :
    (build (("proj").data) worldBadJs emptyOut).2.mainJs = emptyOut.mainJs ∧
    (∃ ew ej, locateArtifacts (rootJoin (("proj").data) targetSubdir) worldBadJs.entries =
      Except.ok (ew, ej) ∧
      (build (("proj").data) worldBadJs emptyOut).2.compiledWasm = some ew.data ∧
      (build (("proj").data) worldBadJs emptyOut).2.mainJs = emptyOut.mainJs) :=
  ⟨(c2_failed_run_output_files (("proj").data) worldBadJs emptyOut).1 (by decide),
   (c2_failed_run_output_files (("proj").data) worldBadJs emptyOut).2.2 (Or.inl (by decide))⟩

/-- C3 counterexample: a template-shaped subject with a single-space
payload makes both patterns match with the prefix end strictly after the
suffix start, and process_js panics on the slice instead of returning
UnexpectedStructureError. -/
theorem c3_counterexample :
    (matchSpans inputOverlap).map (fun es => decide (es.2 < es.1)) = some true ∧
    process_js inputOverlap = JsResult.panicked ∧
    process_js inputOverlap ≠ JsResult.err JsError.unexpectedStructure := by
  refine ⟨by decide, by decide, by decide⟩

/-- C3 (amended): when both patterns match but the prefix match ends
strictly after the suffix match starts, process_js panics on the
out-of-bounds slice input[e..s]; no UnexpectedStructureError is returned
and no payload is produced. -/
theorem c3_inverted_spans_panic : ∀ (input : List Char) (e s : Nat),
    mLen (tokFuel prefixToks) prefixToks input = some e →
    findSuffixStart suffixToks input = some s → s < e →
    process_js input = JsResult.panicked :=
  fun _ _ _ hp hs hlt => process_js_panic_of_inverted hp hs hlt

/-- Witness for C3: the amended theorem applied at the overlapping-spans
subject. -/
theorem c3_witness : process_js inputOverlap = JsResult.panicked :=
  c3_inverted_spans_panic inputOverlap (expectedPrefixTemplate.data.length + 8)
    (expectedPrefixTemplate.data.length - 5) (by decide) (by decide) (by decide)

/-- C4 counterexample: the sentinel compiles to the [A-Za-z0-9_]*
wildcard, and the prefix pattern does match the template text with the
sentinel position filled by the empty string. -/
theorem c4_counterexample :
    Tok.ident ∈ prefixToks ∧
    (mLen (tokFuel prefixToks) prefixToks filledEmpty).isSome = true := by
  refine ⟨by decide, by decide⟩

/-- C4 (amended): every XXX sentinel in the template becomes a wildcard
matching zero or more identifier-safe characters (the identifier wildcard
accepts every identifier string, the empty string included), so a subject
with an empty sentinel fill can match the compiled pattern. -/
theorem c4_sentinel_zero_or_more :
    (∀ fill : List Char, (∀ c ∈ fill, isIdentChar c = true) → Inst (Tok.ident :: []) fill) ∧
    Tok.ident ∈ prefixToks ∧
    (mLen (tokFuel prefixToks) prefixToks filledEmpty).isSome = true := by
  refine ⟨?_, by decide, by decide⟩
  intro fill h
  have hx := Inst.ident h Inst.nil
  simpa using hx

/-- Witness for C4: the wildcard clause applied at the empty fill. -/
theorem c4_witness :
    Inst (Tok.ident :: []) ([] : List Char) ∧
    (mLen (tokFuel prefixToks) prefixToks filledEmpty).isSome = true :=
  ⟨c4_sentinel_zero_or_more.1 [] (by simp), c4_sentinel_zero_or_more.2.2⟩

/-- C5 counterexample: inserting the payload x-space between the templates
makes both patterns match, but the extracted payload is x, not the
inserted text (the trailing space is absorbed by the whitespace
wildcards). -/
theorem c5_counterexample :
    (mLen (tokFuel prefixToks) prefixToks inputTrailingWs).isSome = true ∧
    (findSuffixStart suffixToks inputTrailingWs).isSome = true ∧
    payloadAt inputTrailingWs = some ('x' :: []) ∧
    ('x' :: []) ≠ insertedTrailingWs := by
  refine ⟨by decide, by decide, by decide, by decide⟩

/-- C5 (amended): for every text built from the prefix template and the
suffix template with arbitrary (possibly empty) whitespace runs in place
of each template whitespace run and arbitrary identifier-safe values in
place of each sentinel, and an inserted payload that is nonempty and
neither starts nor ends with whitespace, both patterns match at the exact
template boundaries and the extracted payload is exactly the inserted
text. -/
theorem c5_instantiation_exact : ∀ (pch sch : List (List Char)) (y : List Char),
    starOkB prefixToks pch = true → starOkB suffixToks sch = true → y ≠ [] →
    (∀ c, y.head? = some c → isWsChar c = false) →
    (∀ c, y.getLast? = some c → isWsChar c = false) →
    mLen (tokFuel prefixToks) prefixToks
        (instToks prefixToks pch ++ y ++ instToks suffixToks sch) =
      some (instToks prefixToks pch).length ∧
    findSuffixStart suffixToks
        (instToks prefixToks pch ++ y ++ instToks suffixToks sch) =
      some ((instToks prefixToks pch).length + y.length) ∧
    payloadAt (instToks prefixToks pch ++ y ++ instToks suffixToks sch) = some y ∧
    process_js (instToks prefixToks pch ++ y ++ instToks suffixToks sch) =
      JsResult.ok (y ++ assembledCallText) := by
  intro pch sch y h1 h2 h3 h4 h5
  obtain ⟨hp, hs, hproc⟩ := process_js_on_instantiation pch sch y h1 h2 h3 h4 h5
  refine ⟨hp, hs, ?_, hproc⟩
  simp only [payloadAt, matchSpans, hp, hs]
  rw [if_pos (Nat.le_add_right _ _)]
  have hsub : (instToks prefixToks pch).length + y.length -
      (instToks prefixToks pch).length = y.length := by omega
  rw [hsub, List.append_assoc, List.drop_left, List.take_left]

/-- Witness for C5: the amended theorem applied at concrete wildcard
choices and the payload q. -/
theorem c5_witness :
    payloadAt (instToks prefixToks (demoChoices prefixToks) ++ ('q' :: []) ++
      instToks suffixToks (demoChoices suffixToks)) = some ('q' :: []) ∧
    process_js (instToks prefixToks (demoChoices prefixToks) ++ ('q' :: []) ++
      instToks suffixToks (demoChoices suffixToks)) =
      JsResult.ok (('q' :: []) ++ assembledCallText) := by
  have h := c5_instantiation_exact (demoChoices prefixToks) (demoChoices suffixToks)
    ('q' :: []) (by decide) (by decide) (by decide)
    (fun c hc => by
      simp only [List.head?_cons, Option.some.injEq] at hc
      rw [← hc]
      decide)
    (fun c hc => by
      simp only [List.getLast?_singleton, Option.some.injEq] at hc
      rw [← hc]
      decide)
  exact ⟨h.2.2.1, h.2.2.2⟩

/-- C6 counterexample: with two loader scripts and no binary module in the
directory, the wasm category has zero matching files, yet the locator
fails with the ambiguous-js error rather than the missing-wasm error. -/
theorem c6_counterexample :
    ((jsEntryA :: jsEntryB :: []).filter isWasmEntry).length = 0 ∧
    locateArtifacts demoDir (jsEntryA :: jsEntryB :: []) =
      Except.error (BuildErr.ambiguousArtifact demoDir ArtifactKind.js) ∧
    locateArtifacts demoDir (jsEntryA :: jsEntryB :: []) ≠
      Except.error (BuildErr.missingArtifact demoDir ArtifactKind.wasm) := by
  refine ⟨by decide, by decide, by decide⟩

/-- C6 (amended): ambiguity is detected during the scan and takes
precedence over missing artifacts, and missing-wasm is reported before
missing-js; with exactly one file of each category the locator returns
both entries, with zero wasm files and at most one js file it fails with
the missing-wasm error naming the directory, with exactly one wasm file
and zero js files with the missing-js error, with two or more wasm files
and at most one js file with the ambiguous-wasm error, and with two or
more js files and at most one wasm file with the ambiguous-js error. -/
theorem c6_locator_cases :
    (∀ (dir : List Char) (entries : List DirEntry) (ew ej : DirEntry),
      entries.filter isWasmEntry = ew :: [] → entries.filter isJsEntry = ej :: [] →
      locateArtifacts dir entries = Except.ok (ew, ej)) ∧
    (∀ (dir : List Char) (entries : List DirEntry),
      (entries.filter isWasmEntry).length = 0 → (entries.filter isJsEntry).length ≤ 1 →
      locateArtifacts dir entries =
        Except.error (BuildErr.missingArtifact dir ArtifactKind.wasm)) ∧
    (∀ (dir : List Char) (entries : List DirEntry) (ew : DirEntry),
      entries.filter isWasmEntry = ew :: [] → (entries.filter isJsEntry).length = 0 →
      locateArtifacts dir entries =
        Except.error (BuildErr.missingArtifact dir ArtifactKind.js)) ∧
    (∀ (dir : List Char) (entries : List DirEntry),
      2 ≤ (entries.filter isWasmEntry).length → (entries.filter isJsEntry).length ≤ 1 →
      locateArtifacts dir entries =
        Except.error (BuildErr.ambiguousArtifact dir ArtifactKind.wasm)) ∧
    (∀ (dir : List Char) (entries : List DirEntry),
      2 ≤ (entries.filter isJsEntry).length → (entries.filter isWasmEntry).length ≤ 1 →
      locateArtifacts dir entries =
        Except.error (BuildErr.ambiguousArtifact dir ArtifactKind.js)) := by
  refine ⟨?_, ?_, ?_, ?_, ?_⟩
  · intro dir entries ew ej hwf hjf
    have hrun := locGo_run entries dir none none
      (by rw [hwf, optCount_none]; simp) (by rw [hjf, optCount_none]; simp)
    rw [hwf, hjf] at hrun
    simp [locateArtifacts, hrun, mergeOpt]
  · intro dir entries hw hj
    have hwnil : entries.filter isWasmEntry = [] := List.eq_nil_of_length_eq_zero hw
    have hrun := locGo_run entries dir none none
      (by rw [hwnil, optCount_none]; simp)
      (by rw [optCount_none]; omega)
    rw [hwnil] at hrun
    simp [locateArtifacts, hrun, mergeOpt]
  · intro dir entries ew hwf hj
    have hjnil : entries.filter isJsEntry = [] := List.eq_nil_of_length_eq_zero hj
    have hrun := locGo_run entries dir none none
      (by rw [hwf, optCount_none]; simp) (by rw [hjnil, optCount_none]; simp)
    rw [hwf, hjnil] at hrun
    simp [locateArtifacts, hrun, mergeOpt]
  · intro dir entries hw hj
    have hamb := locGo_amb_wasm entries dir none none
      (by rw [optCount_none]; omega) (by rw [optCount_none]; omega)
    simp [locateArtifacts, hamb]
  · intro dir entries hj hw
    have hamb := locGo_amb_js entries dir none none
      (by rw [optCount_none]; omega) (by rw [optCount_none]; omega)
    simp [locateArtifacts, hamb]

/-- Witness for C6: the exactly-one and missing-wasm clauses applied at
concrete directories. -/
theorem c6_witness :
    locateArtifacts demoDir (wasmEntryDemo :: jsEntryA :: []) =
      Except.ok (wasmEntryDemo, jsEntryA) ∧
    locateArtifacts demoDir ([] : List DirEntry) =
      Except.error (BuildErr.missingArtifact demoDir ArtifactKind.wasm) :=
  ⟨c6_locator_cases.1 demoDir (wasmEntryDemo :: jsEntryA :: []) wasmEntryDemo jsEntryA
      (by decide) (by decide),
   c6_locator_cases.2.1 demoDir [] (by decide) (by decide)⟩

/-- C7: on every success the assembled script is exactly the extracted
payload followed by the fixed snippet, a newline plus
SCREEPS_JS_INITIALIZE_CALL, and that snippet contains the literal call
text passing exactly two positional arguments to the global __initialize
function: the synchronously-obtained module handle
new WebAssembly.Module(require(...)) first, then the literal false. -/
theorem c7_output_shape : ∀ (input out : List Char), process_js input = JsResult.ok out →
    ∃ e s, mLen (tokFuel prefixToks) prefixToks input = some e ∧
      findSuffixStart suffixToks input = some s ∧ e ≤ s ∧
      out = (input.drop e).take (s - e) ++ assembledCallText ∧
      assembledCallText = '\n' :: SCREEPS_JS_INITIALIZE_CALL.data ∧
      containsSub assembledCallText
        (("__initialize(new WebAssembly.Module(require(\x27compiled\x27)), false);").data) =
        true := by
  intro input out h
  obtain ⟨e, s, hp, hs, hes, hout⟩ := process_js_ok_decomp h
  exact ⟨e, s, hp, hs, hes, hout, rfl, by decide⟩

/-- Witness for C7: the theorem applied at a concrete successful run. -/
theorem c7_witness : ∃ e s,
    mLen (tokFuel prefixToks) prefixToks inputDemo = some e ∧
    findSuffixStart suffixToks inputDemo = some s ∧ e ≤ s ∧
    payloadDemo ++ assembledCallText = (inputDemo.drop e).take (s - e) ++ assembledCallText ∧
    assembledCallText = '\n' :: SCREEPS_JS_INITIALIZE_CALL.data ∧
    containsSub assembledCallText
      (("__initialize(new WebAssembly.Module(require(\x27compiled\x27)), false);").data) =
      true :=
  c7_output_shape inputDemo (payloadDemo ++ assembledCallText) (by decide)

/-- C8: a non-zero exit status of the external cargo invocation makes
check fail with the error carrying that status, and makes build fail the
same way with no artifact scanned and no output touched; a zero exit
status makes check succeed. -/
theorem c8_exit_code_contract :
    (∀ code : Int, code ≠ 0 → check code = Except.error (BuildErr.exec code)) ∧
    (∀ (root : List Char) (w : BuildWorld) (fs : OutDirState), w.cargoExit ≠ 0 →
      build root w fs = (BuildOutcome.err (BuildErr.exec w.cargoExit), fs)) ∧
    check 0 = Except.ok () := by
  refine ⟨?_, ?_, rfl⟩
  · intro code h
    simp [check, h]
  · intro root w fs h
    simp [build, h]

/-- Witness for C8: the contract applied at exit codes one and zero. -/
theorem c8_witness :
    check 1 = Except.error (BuildErr.exec 1) ∧
    build (("proj").data) ⟨1, []⟩ emptyOut = (BuildOutcome.err (BuildErr.exec 1), emptyOut) :=
  ⟨c8_exit_code_contract.1 1 (by decide),
   c8_exit_code_contract.2.1 (("proj").data) ⟨1, []⟩ emptyOut (by decide)⟩

/-- C9: process_js is a function of the generated text alone, so two runs
on the same text give byte-identical scripts, and re-running build on
unchanged inputs reproduces the output-directory state of the first
run. -/
theorem c9_idempotent :
    (∀ (input o1 o2 : List Char), process_js input = JsResult.ok o1 →
      process_js input = JsResult.ok o2 → o1 = o2) ∧
    (∀ (root : List Char) (w : BuildWorld) (fs : OutDirState),
      build root w (build root w fs).2 = build root w fs) := by
  constructor
  · intro input o1 o2 h1 h2
    rw [h1] at h2
    simpa using h2
  · intro root w fs
    by_cases hc : w.cargoExit = 0
    · have hne : ¬ w.cargoExit ≠ 0 := by simp [hc]
      cases hloc : locateArtifacts (rootJoin root targetSubdir) w.entries with
      | error e => simp [build, hne, hloc]
      | ok pair =>
        obtain ⟨wf, jf⟩ := pair
        cases hjs : process_js jf.data with
        | ok out => simp [build, hne, hloc, hjs]
        | err je => cases je <;> simp [build, hne, hloc, hjs]
        | panicked => simp [build, hne, hloc, hjs]
    · simp [build, hc]

/-- Witness for C9: both clauses applied at concrete inputs. -/
theorem c9_witness :
    (payloadDemo ++ assembledCallText = payloadDemo ++ assembledCallText) ∧
    build (("proj").data) worldBadJs (build (("proj").data) worldBadJs emptyOut).2 =
      build (("proj").data) worldBadJs emptyOut :=
  ⟨c9_idempotent.1 inputDemo (payloadDemo ++ assembledCallText)
      (payloadDemo ++ assembledCallText) (by decide) (by decide),
   c9_idempotent.2 (("proj").data) worldBadJs emptyOut⟩

/-- C10: every subject matched by the end-anchored pattern contains the
literal __initialize (the suffix template carries it outside all
wildcards), so the entry-point-marker error branch of process_js is
unreachable: process_js never returns MissingEntryPointError. -/
theorem c10_entry_branch_unreachable :
    (∀ (input : List Char) (s : Nat), findSuffixStart suffixToks input = some s →
      containsSub input entryMarker = true) ∧
    (∀ input : List Char, process_js input ≠ JsResult.err JsError.missingEntryPoint) :=
  ⟨fun _ _ h => suffix_found_contains_marker h, process_js_not_missing_entry⟩

/-- Witness for C10: the containment clause applied at the suffix template
itself, which the end-anchored pattern matches at offset zero. -/
theorem c10_witness :
    containsSub expectedSuffixTemplate.data entryMarker = true ∧
    process_js expectedSuffixTemplate.data ≠ JsResult.err JsError.missingEntryPoint :=
  ⟨c10_entry_branch_unreachable.1 expectedSuffixTemplate.data 0 (by decide),
   c10_entry_branch_unreachable.2 expectedSuffixTemplate.data⟩
